import Mathlib

/-!
Verification of the streaming-progress pipeline and heuristic extraction engine.

Shallow embedding of the JavaScript dashboard frontend:

* `src/unnamed/part_009` — the benchmark streaming client (`executeBenchmarkTask`),
  which splits every received chunk on `'\n'` with no cross-read buffer;
* `src/frontend/src/components/ExecutiveSummary.jsx` — the analysis streaming
  client (`analyzeDataStreaming.readStream`), which keeps an internal buffer,
  splits on `"\n\n"`, and retains the trailing partial record;
* `src/frontend/src/components/BenchmarkInterface.jsx` — the execution-phase
  progress state (`handleExecute.onProgress` / `onComplete`);
* `src/frontend/src/components/ActionableInsights.jsx` — the heuristic
  extraction engine (`parseOpportunities`, `extractWhy`, `extractRisk`,
  `extractNextSteps`, `extractDealContext`).

JavaScript strings are modelled as `List Char` (`Str`).  Host-library
functions used by the source (`JSON.parse`, `parseFloat`,
`Number.toLocaleString`, `String.split`, `trim`, `includes`, `startsWith`,
`slice`) are modelled by executable Lean functions on `Str`, restricted to the
fragment the source exercises: `JSON.parse` to flat objects of string /
integer / boolean / null fields with unescaped strings, `parseFloat` and
`toLocaleString` to integral numbers (the monetary strings handled by the
extraction engine are digit-and-comma strings).
-/

set_option maxRecDepth 4096

/-- JavaScript strings, modelled as lists of characters. -/
abbrev Str := List Char

/-- Prepend a character to the first piece of a split result
(used by the splitters below to build pieces front-to-back). -/
def consHead (c : Char) : List Str → List Str
  | [] => [[c]]
  | l :: ls => (c :: l) :: ls

/-- JS `s.split(sep)` for a single-character separator `sep`
(always returns at least one piece; a trailing separator yields a final `""`). -/
def splitChar (sep : Char) : Str → List Str
  | [] => [[]]
  | c :: rest => if c = sep then [] :: splitChar sep rest else consHead c (splitChar sep rest)

/-- JS `s.split('\n\n')`: greedy left-to-right scan for the two-character
separator, non-overlapping occurrences. -/
def split2NL : Str → List Str
  | [] => [[]]
  | c :: rest =>
    if c = '\n' then
      match rest with
      | c2 :: r2 => if c2 = '\n' then [] :: split2NL r2 else consHead c (consHead c2 (split2NL r2))
      | [] => [[c]]
    else consHead c (split2NL rest)

/-- The last piece of a split result (split results are never empty;
the default is never used). -/
def lastP (l : List Str) : Str := (l.getLast?).getD []

/-- Whitespace as accepted by JS `trim` / `\s` (ASCII fragment). -/
def isJsWs (c : Char) : Bool := c = ' ' ∨ c = '\t' ∨ c = '\n' ∨ c = '\r'

/-- JS `String.prototype.trim`. -/
def jsTrim (s : Str) : Str :=
  ((s.dropWhile isJsWs).reverse.dropWhile isJsWs).reverse

/-- JS `hay.includes(needle)` (substring containment). -/
def strContains (hay needle : Str) : Bool :=
  if needle.isPrefixOf hay then true
  else match hay with
    | [] => false
    | _ :: t => strContains t needle

/-- Does any of the (lowercase) literal alternatives of a keyword group occur
in the lowercased context?  Models a case-insensitive JS regex that is an
alternation of literals. -/
def anyKw (ctx : Str) (pats : List String) : Bool :=
  pats.any (fun p => strContains (ctx.map Char.toLower) p.toList)

/-- JS `l.slice(a, b)` on arrays (with `a`, `b` already clamped to `[0, length]`
by the callers). -/
def jsSlice (a b : Nat) (l : List Str) : List Str := (l.take b).drop a

/-- The integral fragment of JS `parseFloat`: skip leading whitespace, read an
optional sign and a non-empty run of decimal digits, ignore the rest of the
string; `none` models `NaN`.  (The monetary strings fed to `parseFloat` by the
extraction engine are digit-and-comma strings, integral after comma removal.) -/
def jsParseFloat (s : Str) : Option Int :=
  let s1 := s.dropWhile isJsWs
  let (sign, s2) : Int × Str :=
    match s1 with
    | '-' :: r => (-1, r)
    | '+' :: r => (1, r)
    | _ => (1, s1)
  let ds := s2.takeWhile Char.isDigit
  if ds.isEmpty then none
  else some (sign * (Int.ofNat (ds.foldl (fun n c => 10 * n + (c.toNat - '0'.toNat)) 0)))

/-- Insert a `','` after every three digits of a reversed digit list. -/
def group3 : Str → Str
  | a :: b :: c :: d :: rest => a :: b :: c :: ',' :: group3 (d :: rest)
  | r => r

/-- JS `Number.prototype.toLocaleString()` (en-US) on integers:
thousands separated by commas. -/
def intToLocale (n : Int) : Str :=
  (if n < 0 then ['-'] else []) ++ (group3 (Nat.toDigits 10 n.natAbs).reverse).reverse

/-- The dollar-tagged display value built by the source:
`` `$${parseFloat(v).toLocaleString()}` `` — `"$NaN"` when the parse fails. -/
def dollarValue (v : Option Int) : Str :=
  match v with
  | some n => '$' :: intToLocale n
  | none => "$NaN".toList

/-! ## A model of `JSON.parse` on flat envelopes

The streaming endpoints emit line-delimited JSON envelopes whose fields are
strings, integers, booleans or `null` (`{type, message, progress, ...}` /
`{status, progress, ...}`).  `jsonParse` models the host `JSON.parse` on this
fragment: flat objects, unescaped strings, integral numbers; any other input
is a parse failure (in the clients a thrown exception, modelled by `none`). -/

/-- A flat JSON value. -/
inductive JVal where
  | jstr (s : Str)
  | jnum (n : Int)
  | jbool (b : Bool)
  | jnull
deriving DecidableEq

/-- A flat JSON object, as the ordered list of its key/value pairs. -/
abbrev JObj := List (Str × JVal)

/-- Property lookup on a parsed object.  JS object construction lets a later
duplicate key overwrite an earlier one, so the last binding wins. -/
def jlookup (k : String) (o : JObj) : Option JVal :=
  (o.reverse.find? (fun p => p.1 = k.toList)).map (fun p => p.2)

/-- Parse a JSON string literal (no escape sequences). -/
def parseJStr (s : Str) : Option (Str × Str) :=
  match s with
  | '"' :: r =>
    let v := r.takeWhile (fun c => c ≠ '"')
    match r.dropWhile (fun c => c ≠ '"') with
    | '"' :: r2 => some (v, r2)
    | _ => none
  | _ => none

/-- Parse a JSON integer literal. -/
def parseJNum (s : Str) : Option (Int × Str) :=
  let (sign, s1) : Int × Str := match s with | '-' :: r => (-1, r) | _ => (1, s)
  let ds := s1.takeWhile Char.isDigit
  if ds.isEmpty then none
  else some (sign * Int.ofNat (ds.foldl (fun n c => 10 * n + (c.toNat - '0'.toNat)) 0),
             s1.dropWhile Char.isDigit)

/-- Parse a flat JSON value (string, integer, `true`, `false`, `null`). -/
def parseJVal (s : Str) : Option (JVal × Str) :=
  match parseJStr s with
  | some (v, r) => some (.jstr v, r)
  | none =>
    if "true".toList.isPrefixOf s then some (.jbool true, s.drop 4)
    else if "false".toList.isPrefixOf s then some (.jbool false, s.drop 5)
    else if "null".toList.isPrefixOf s then some (.jnull, s.drop 4)
    else match parseJNum s with
      | some (n, r) => some (.jnum n, r)
      | none => none

/-- Skip JSON insignificant whitespace. -/
def skipWs (s : Str) : Str := s.dropWhile isJsWs

/-- Parse the comma-separated members of an object, positioned at a key.
The fuel is an upper bound on the number of members (one per call). -/
def parseJMembers : Nat → Str → JObj → Option JObj
  | 0, _, _ => none
  | fuel + 1, s, acc =>
    match parseJStr s with
    | some (k, r) =>
      match skipWs r with
      | ':' :: r2 =>
        match parseJVal (skipWs r2) with
        | some (v, r3) =>
          match skipWs r3 with
          | ',' :: r4 => parseJMembers fuel (skipWs r4) (acc ++ [(k, v)])
          | '}' :: r4 => if (skipWs r4).isEmpty then some (acc ++ [(k, v)]) else none
          | _ => none
        | none => none
      | _ => none
    | none => none

/-- `JSON.parse` on a flat object (the whole string must be consumed). -/
def jsonParse (s : Str) : Option JObj :=
  match skipWs s with
  | '{' :: r =>
    match skipWs r with
    | '}' :: r2 => if (skipWs r2).isEmpty then some [] else none
    | r1 => parseJMembers (s.length + 1) r1 []
  | _ => none

/-! ## Transport client A: `executeBenchmarkTask` (`src/unnamed/part_009`)

Each received chunk is decoded and split on `'\n'` **independently — there is
no buffer carried between reads**.  Every line starting with `"data: "` is
`JSON.parse`d; a parse failure is logged and skipped; an envelope with
`status === 'complete'` invokes `onComplete`, any other parsed envelope
invokes `onProgress(data.status, data.progress)`, and the read loop continues
either way. -/

/-- A handler invocation made by `executeBenchmarkTask`.  `onComplete`
receives the projected result object built from `data.task_id`,
`data.file_name`, `data.formula_count`, `data.sections` and `data.errors`;
`onProgress` receives `(data.status, data.progress)`. -/
inductive BInv where
  | onCompleteInv (taskId fileName formulaCount sections errors : Option JVal)
  | onProgressInv (status progress : Option JVal)
deriving DecidableEq

/-- Decode one line of a chunk: the `"data: "` guard, `JSON.parse` of the
rest (`line.slice(6)`), and the `status === 'complete'` dispatch.
`none` covers both non-`data:` lines and malformed records (caught, logged,
skipped). -/
def parseLineA (line : Str) : Option BInv :=
  if "data: ".toList.isPrefixOf line then
    match jsonParse (line.drop 6) with
    | some o =>
      if jlookup "status" o = some (.jstr "complete".toList)
      then some (.onCompleteInv (jlookup "task_id" o) (jlookup "file_name" o)
        (jlookup "formula_count" o) (jlookup "sections" o) (jlookup "errors" o))
      else some (.onProgressInv (jlookup "status" o) (jlookup "progress" o))
    | none => none
  else none

/-- The handler invocations of one received chunk, in order. -/
def chunkEventsA (chunk : Str) : List BInv :=
  (splitChar '\n' chunk).filterMap parseLineA

/-- The handler invocations of a whole session of `executeBenchmarkTask`,
reading the given chunks in order. -/
def eventsA (chunks : List Str) : List BInv :=
  chunks.flatMap chunkEventsA

/-- The invocations of a flat line sequence (the per-line body of the client's
nested loop, abstracted from the chunk structure). -/
def lineEventsA (lines : List Str) : List BInv :=
  lines.filterMap parseLineA

/-! ## Transport client B: `analyzeDataStreaming.readStream` (`ExecutiveSummary.jsx`)

This client keeps a persistent `buffer` across reads: each read appends the
decoded chunk, splits the buffer on `'\n\n'`, pops the trailing (possibly
incomplete) piece back into the buffer and processes the complete records.
Every record starting with `"data: "` is `JSON.parse`d (a failure is logged
and skipped) and dispatched on its `type` field; `complete` resolves the
promise and returns, `error` rejects it and returns — in both cases the read
loop is left and no further record is processed. -/

/-- A decoded streaming event (the parsed envelope, dispatched to the handler
named by its `type` field). -/
inductive SEv where
  | evStatus (o : JObj)
  | evPartialMsg (o : JObj)
  | evTool (o : JObj)
  | evComplete (o : JObj)
  | evError (o : JObj)
deriving DecidableEq

/-- How the promise is settled. -/
inductive Settle where
  | resolvedWith (o : JObj)
  | rejectedWith (message : Option JVal)
deriving DecidableEq

/-- The settlement a decoded event causes, if it is terminal
(`complete` resolves with the envelope; `error` rejects with `data.message`). -/
def settleOfEv : SEv → Option Settle
  | .evComplete o => some (.resolvedWith o)
  | .evError o => some (.rejectedWith (jlookup "message" o))
  | _ => none

/-- Is the event terminal? -/
def isTerm (e : SEv) : Bool := (settleOfEv e).isSome

/-- Decode one record: the `"data: "` guard, `JSON.parse` of `line.slice(6)`,
and the `switch (data.type)` dispatch.  `none` covers non-`data:` records,
malformed records (caught, logged, skipped) and unrecognised `type`s
(no `switch` case, nothing happens). -/
def decodeLineB (rec : Str) : Option SEv :=
  if "data: ".toList.isPrefixOf rec then
    match jsonParse (rec.drop 6) with
    | some o =>
      match jlookup "type" o with
      | some (.jstr t) =>
        if t = "status".toList then some (.evStatus o)
        else if t = "partial".toList then some (.evPartialMsg o)
        else if t = "tool".toList then some (.evTool o)
        else if t = "complete".toList then some (.evComplete o)
        else if t = "error".toList then some (.evError o)
        else none
      | _ => none
    | none => none
  else none

/-- The state of one `readStream` session: the carry-over buffer, whether the
loop has returned (after which no further read or dispatch happens), the
handler invocations made so far (one per dispatched event, in order), and the
promise settlement. -/
structure Sess where
  buf : Str
  stopDone : Bool
  out : List SEv
  settle : Option Settle
deriving DecidableEq

/-- The session state before the first read. -/
def sessInit : Sess := ⟨[], false, [], none⟩

/-- Process one complete record (one iteration of the `for (const line of
lines)` loop): skipped entirely if the session already returned; otherwise the
decoded event is dispatched to its handler, and a terminal event additionally
settles the promise and leaves the loop. -/
def stepRec (st : Sess) (rec : Str) : Sess :=
  if st.stopDone then st
  else
    match decodeLineB rec with
    | none => st
    | some ev =>
      match settleOfEv ev with
      | some s => { st with out := st.out ++ [ev], settle := some s, stopDone := true }
      | none => { st with out := st.out ++ [ev] }

/-- Process a list of complete records in order. -/
def procRecs (st : Sess) (recs : List Str) : Sess :=
  recs.foldl stepRec st

/-- One `reader.read()` iteration of `readStream`: append the chunk to the
buffer, split on `'\n\n'`, keep the incomplete trailing piece in the buffer and
process the complete records.  If the session already returned, the chunk is
never read. -/
def feedChunk (st : Sess) (chunk : Str) : Sess :=
  if st.stopDone then st
  else
    let parts := split2NL (st.buf ++ chunk)
    procRecs { st with buf := lastP parts } parts.dropLast

/-- A whole `readStream` session over the arriving chunks. -/
def runSession (chunks : List Str) : Sess :=
  chunks.foldl feedChunk sessInit

/-- The observable outcome of a session: the handler invocations, in order,
and the promise settlement. -/
def sessionOut (chunks : List Str) : List SEv × Option Settle :=
  ((runSession chunks).out, (runSession chunks).settle)

/-- The complete records of a byte stream: all `'\n\n'`-terminated pieces. -/
def recordsOf (s : Str) : List Str := (split2NL s).dropLast

/-- Concatenation of all chunks of a stream. -/
def joinS (chunks : List Str) : Str := chunks.flatMap id

/-- The decoded events of a fully delivered byte stream. -/
def decodedEvents (s : Str) : List SEv := (recordsOf s).filterMap decodeLineB

/-! ## The progress state machine (`BenchmarkInterface.jsx`, `handleExecute`) -/

/-- The status of one execution phase. -/
inductive PhStatus where
  | pending
  | active
  | complete
deriving DecidableEq

/-- The four execution phases (Initialize, Analyze, Generate, Validate). -/
structure Phases where
  initPh : PhStatus
  analyzePh : PhStatus
  generatePh : PhStatus
  validatePh : PhStatus
deriving DecidableEq

/-- The phases as set up at the start of `handleExecute`. -/
def phasesStart : Phases := ⟨.active, .pending, .pending, .pending⟩

/-- The `setExecutionPhases` updater run on every `onProgress` callback:
threshold bands activate and complete phases in place. -/
def stepPhases (ph : Phases) (p : Int) : Phases :=
  if 20 ≤ p ∧ p < 50 then { ph with initPh := .complete, analyzePh := .active }
  else if 50 ≤ p ∧ p < 80 then { ph with analyzePh := .complete, generatePh := .active }
  else if 80 ≤ p then { ph with generatePh := .complete, validatePh := .active }
  else ph

/-- The phase state after a sequence of reported progress values. -/
def runPhases (ps : List Int) : Phases :=
  ps.foldl stepPhases phasesStart

/-- A callback delivered to `handleExecute` by the streaming client:
a progress update (message and progress value) or completion. -/
inductive BEvent where
  | progressEvt (msg : String) (p : Int)
  | completeEvt
deriving DecidableEq

/-- The component state touched by the callbacks: reported progress, status
line, execution phases, and the progress log (message and progress per entry;
wall-clock timestamps are outside the model). -/
structure BState where
  progress : Int
  statusMsg : String
  phases : Phases
  log : List (String × Int)
deriving DecidableEq

/-- The state set up at the start of `handleExecute`. -/
def bStart : BState := ⟨0, "Initializing task execution...", phasesStart, []⟩

/-- One callback: `onProgress` sets status and progress, advances the phases
and appends a log entry; `onComplete` sets progress to 100 and the status to
`'Complete!'` (and touches nothing else before the delayed reset). -/
def stepB (st : BState) (e : BEvent) : BState :=
  match e with
  | .progressEvt msg p =>
    { st with progress := p, statusMsg := msg,
              phases := stepPhases st.phases p,
              log := st.log ++ [(msg, p)] }
  | .completeEvt => { st with progress := 100, statusMsg := "Complete!" }

/-- The component state after a stream of callbacks. -/
def runBench (events : List BEvent) : BState :=
  events.foldl stepB bStart

/-- All four phases report `complete`. -/
def allPhasesComplete (ph : Phases) : Bool :=
  ph.initPh = .complete ∧ ph.analyzePh = .complete ∧
  ph.generatePh = .complete ∧ ph.validatePh = .complete

/-- The number of phases reporting `active`. -/
def activeCount (ph : Phases) : Nat :=
  [ph.initPh, ph.analyzePh, ph.generatePh, ph.validatePh].countP (· = .active)

/-- Completeness of each phase is preserved from `a` to `b`
(no regression from `complete` to `active`/`pending`). -/
def phasesMono (a b : Phases) : Prop :=
  (a.initPh = .complete → b.initPh = .complete) ∧
  (a.analyzePh = .complete → b.analyzePh = .complete) ∧
  (a.generatePh = .complete → b.generatePh = .complete) ∧
  (a.validatePh = .complete → b.validatePh = .complete)

instance (a b : Phases) : Decidable (phasesMono a b) := by
  unfold phasesMono; infer_instance

/-! ## The extraction engine (`ActionableInsights.jsx`)

`parseOpportunities` runs three pattern families over every line of every
opportunity insight's content:

1. markdown table rows `|rank|name|value|stage|owner|` (lazy `(.+?)` cells),
2. numbered list rows `N. Name - $Value (Stage)`,
3. simple colon rows `Name: $Value`,

then deduplicates by exact name, sorts descending by re-parsed value and keeps
the top 5.  The lazy `(.+?)` groups of the JS regexes are modelled by
shortest-first backtracking searches; `\s*` before a lazy group is modelled as
a maximal whitespace skip (the JS engine prefers the same split on every input
whose captured name does not begin with whitespace). -/

/-- One extracted opportunity candidate.  Fields that a pattern family leaves
`undefined` in the source are `none`. -/
structure Opp where
  rank : Option Str := none
  name : Str
  value : Str
  stage : Option Str := none
  owner : Option Str := none
  context : Str := []
  why : Option String := none
  risk : Option String := none
  nextSteps : String
deriving DecidableEq

/-- Lazy cell of the table regex: the shortest non-empty prefix followed by a
`'|'`, returning the cell and the text after that `'|'`. -/
def takeCell (s : Str) : Option (Str × Str) :=
  match s with
  | [] => none
  | c :: cs =>
    match cs.dropWhile (fun x => x ≠ '|') with
    | '|' :: rest => some (c :: cs.takeWhile (fun x => x ≠ '|'), rest)
    | _ => none

/-- Pattern 1, `/^\|(.+?)\|(.+?)\|(.+?)\|(.+?)\|(.+?)\|/`:
five lazy cells between pipes. -/
def tableMatch (t : Str) : Option (Str × Str × Str × Str × Str) :=
  match t with
  | '|' :: r =>
    match takeCell r with
    | some (c1, r1) =>
      match takeCell r1 with
      | some (c2, r2) =>
        match takeCell r2 with
        | some (c3, r3) =>
          match takeCell r3 with
          | some (c4, r4) =>
            match takeCell r4 with
            | some (c5, _) => some (c1, c2, c3, c4, c5)
            | none => none
          | none => none
        | none => none
      | none => none
    | none => none
  | _ => none

/-- Lazy parenthesised group `\((.+?)\)`: shortest non-empty content before a
`')'`. -/
def takeParen (s : Str) : Option Str :=
  match s with
  | [] => none
  | c :: cs =>
    match cs.dropWhile (fun x => x ≠ ')') with
    | ')' :: _ => some (c :: cs.takeWhile (fun x => x ≠ ')'))
    | _ => none

/-- The tail of pattern 2 after the lazy name:
`\s*[-–]\s*\$?([\d,]+)\s*(?:\((.+?)\))?` — returns the raw value capture and
the optional stage capture. -/
def p2Tail (s : Str) : Option (Str × Option Str) :=
  match s.dropWhile isJsWs with
  | c :: r =>
    if c = '-' ∨ c = '–' then
      let r1 := r.dropWhile isJsWs
      let r2 := match r1 with | '$' :: r2 => r2 | _ => r1
      let v := r2.takeWhile (fun x => x.isDigit ∨ x = ',')
      if v.isEmpty then none
      else
        let r3 := (r2.dropWhile (fun x => x.isDigit ∨ x = ',')).dropWhile isJsWs
        match r3 with
        | '(' :: r4 => some (v, takeParen r4)
        | _ => some (v, none)
    else none
  | [] => none

/-- Shortest-first search for the lazy name `(.+?)` of pattern 2: after each
consumed character, first try to match the tail at the current position. -/
def p2Name (accRev : Str) (rest : Str) : Option (Str × Str × Option Str) :=
  match rest with
  | [] => none
  | c :: cs =>
    let acc := c :: accRev
    match p2Tail cs with
    | some (v, st) => some (acc.reverse, v, st)
    | none => p2Name acc cs

/-- Pattern 2, `/^(\d+)\.\s*(.+?)\s*[-–]\s*\$?([\d,]+)\s*(?:\((.+?)\))?/`:
returns (rank, raw name, raw value, optional stage). -/
def p2Match (t : Str) : Option (Str × Str × Str × Option Str) :=
  let ds := t.takeWhile Char.isDigit
  if ds.isEmpty then none
  else
    match t.dropWhile Char.isDigit with
    | '.' :: r =>
      match p2Name [] (r.dropWhile isJsWs) with
      | some (n, v, st) => some (ds, n, v, st)
      | none => none
    | _ => none

/-- The tail of pattern 3 after the lazy name: `:\s*\$?([\d,]+)`. -/
def p3Tail (s : Str) : Option Str :=
  match s with
  | ':' :: r =>
    let r1 := r.dropWhile isJsWs
    let r2 := match r1 with | '$' :: r2 => r2 | _ => r1
    let v := r2.takeWhile (fun x => x.isDigit ∨ x = ',')
    if v.isEmpty then none else some v
  | _ => none

/-- Is the character in the name class `[A-Za-z\s&]` of pattern 3? -/
def p3Class (c : Char) : Bool :=
  (c.isAlpha ∧ c.toNat < 128) ∨ isJsWs c ∨ c = '&'

/-- Shortest-first search for the lazy `[A-Za-z\s&]+?` part of pattern 3's
name. -/
def p3Name (accRev : Str) (rest : Str) : Option (Str × Str) :=
  match rest with
  | [] => none
  | c :: cs =>
    if p3Class c then
      let acc := c :: accRev
      match p3Tail cs with
      | some v => some (acc.reverse, v)
      | none => p3Name acc cs
    else none

/-- Pattern 3, `/^([A-Z][A-Za-z\s&]+?):\s*\$?([\d,]+)/`:
returns (raw name, raw value). -/
def p3Match (t : Str) : Option (Str × Str) :=
  match t with
  | c :: cs =>
    if 'A' ≤ c ∧ c ≤ 'Z' then
      match p3Name [c] cs with
      | some (n, v) => some (n, v)
      | none => none
    else none
  | [] => none

/-- The label list of `extractWhy`, checked in source order. -/
def whyOf (ctx : Str) : Option String :=
  if anyKw ctx ["high probability", "likely to close", "strong signal", "qualified",
                "engaged", "ready to buy"] then some "🎯 High probability to close"
  else if anyKw ctx ["largest", "biggest", "high-value", "high value", "enterprise",
                     "strategic"] then some "💰 High-value strategic deal"
  else if anyKw ctx ["urgent", "immediate", "time-sensitive", "time sensitive", "deadline",
                     "q1", "q2", "q3", "q4", "quarter"] then some "⏰ Time-sensitive opportunity"
  else if anyKw ctx ["existing", "current", "upsell", "expansion", "renewal"] then
    some "🤝 Expansion opportunity"
  else none

/-- The label list of `extractRisk`, checked in source order. -/
def riskOf (ctx : Str) : Option String :=
  if anyKw ctx ["stalled", "stuck", "no activity", "delayed", "slow"] then
    some "⚠️ Deal momentum stalled"
  else if anyKw ctx ["competitor", "competitive", "evaluation", "comparing"] then
    some "🏁 Active competition"
  else if anyKw ctx ["budget", "pricing", "cost", "expensive"] then
    some "💸 Budget concerns"
  else if anyKw ctx ["stakeholder", "decision-maker", "decision maker", "approval",
                     "champion"] then some "👥 Missing key stakeholders"
  else none

/-- The label list of `extractNextSteps`, checked in source order. -/
def nextStepsOf (ctx : Str) : Option String :=
  if anyKw ctx ["follow-up", "follow up", "reach out", "contact", "call", "email",
                "schedule"] then some "Follow up with decision maker"
  else if anyKw ctx ["demo", "presentation", "show", "showcase"] then
    some "Schedule product demo"
  else if anyKw ctx ["proposal", "quote", "pricing", "contract"] then
    some "Send proposal/pricing"
  else if anyKw ctx ["close", "sign", "contract", "agreement", "commit"] then
    some "Push for commitment"
  else none

/-- The joined window `lines.slice(max(0, i-1), min(len, i+3)).join(' ')` used
by `extractWhy` and `extractRisk`: the previous line, the line itself and the
next two lines. -/
def ctxWindow (lines : List Str) (i : Nat) : Str :=
  List.intercalate [' '] (jsSlice (i - 1) (min lines.length (i + 3)) lines)

/-- The joined window `lines.slice(i, min(len, i+5)).join(' ')` used by
`extractNextSteps`: the line itself and the next four lines. -/
def nsWindow (lines : List Str) (i : Nat) : Str :=
  List.intercalate [' '] (jsSlice i (min lines.length (i + 5)) lines)

/-- `extractWhy(content, dealName)`: for each line containing the deal name,
in order, check the keyword groups on the `[i-1, i+3)` window; the first hit
wins; `null` when nothing matches. -/
def extractWhy (content dealName : Str) : Option String :=
  let lines := splitChar '\n' content
  (List.range lines.length).findSome? (fun i =>
    if strContains (lines.getD i []) dealName then whyOf (ctxWindow lines i) else none)

/-- `extractRisk(content, dealName)`: same scan with the risk groups. -/
def extractRisk (content dealName : Str) : Option String :=
  let lines := splitChar '\n' content
  (List.range lines.length).findSome? (fun i =>
    if strContains (lines.getD i []) dealName then riskOf (ctxWindow lines i) else none)

/-- `extractNextSteps(content, dealName)`: the `[i, i+5)` window scan, falling
back to `'Review and prioritize'` when no group matches on any line. -/
def extractNextSteps (content dealName : Str) : String :=
  let lines := splitChar '\n' content
  ((List.range lines.length).findSome? (fun i =>
    if strContains (lines.getD i []) dealName then nextStepsOf (nsWindow lines i) else none)).getD
    "Review and prioritize"

/-- `extractDealContext(content, dealName)`: on the first line containing the
name whose stripped text is long enough, that text (to 200 chars); otherwise
the next line's stripped text if it is non-empty; scanning continues on
failure; `''` when nothing is found. -/
def extractDealContext (content dealName : Str) : Str :=
  let lines := splitChar '\n' content
  ((List.range lines.length).findSome? (fun i =>
    if strContains (lines.getD i []) dealName then
      let line := jsTrim ((lines.getD i []).filter
        (fun c => ¬ (c = '|' ∨ c = '#' ∨ c = '*' ∨ c = '-')))
      if dealName.length + 10 < line.length then some (line.take 200)
      else if i + 1 < lines.length ∧ lines.getD (i + 1) [] ≠ [] then
        some ((jsTrim ((lines.getD (i + 1) []).filter
          (fun c => ¬ (c = '|' ∨ c = '#' ∨ c = '*' ∨ c = '-')))).take 200)
      else none
    else none)).getD []

/-- The candidates pushed for one (trimmed) line by the three pattern
families, in source order.  `content` and `lines`/`idx` give the enrichment
context exactly as the source closures receive them. -/
def lineCands (content : Str) (lines : List Str) (idx : Nat) (t : Str) : List Opp :=
  (match tableMatch t with
   | some (rank, nm, value, stage, owner) =>
     if ¬ (strContains nm "Deal".toList ∨ strContains nm "Name".toList ∨
           strContains nm "---".toList) then
       let dealName := jsTrim nm
       let dealValue := (jsTrim value).filter (fun c => ¬ (c = '$' ∨ c = ','))
       if dealName ≠ [] ∧ dealValue ≠ [] ∧ (jsParseFloat dealValue).isSome then
         [{ rank := some (jsTrim rank),
            name := dealName,
            value := dollarValue (jsParseFloat dealValue),
            stage := some (if jsTrim stage = [] then "Unknown".toList else jsTrim stage),
            owner := some (if jsTrim owner = [] then "Unassigned".toList else jsTrim owner),
            context := extractDealContext content dealName,
            why := extractWhy content dealName,
            risk := extractRisk content dealName,
            nextSteps := extractNextSteps content dealName }]
       else []
     else []
   | none => []) ++
  (match p2Match t with
   | some (rank, nm, value, stage) =>
     [{ rank := some rank,
        name := jsTrim nm,
        value := dollarValue (jsParseFloat (value.filter (fun c => c ≠ ','))),
        stage := some (stage.getD "Unknown".toList),
        owner := none,
        context := extractDealContext content nm,
        why := extractWhy content nm,
        risk := extractRisk content nm,
        nextSteps := extractNextSteps content nm }]
   | none => []) ++
  (match p3Match t with
   | some (nm, value) =>
     if ¬ strContains t "|".toList then
       if ¬ (strContains nm "Total".toList ∨ strContains nm "Average".toList) then
         [{ rank := none,
            name := jsTrim nm,
            value := dollarValue (jsParseFloat (value.filter (fun c => c ≠ ','))),
            stage := none,
            owner := none,
            context := lines.getD (idx + 1) [],
            why := extractWhy content nm,
            risk := extractRisk content nm,
            nextSteps := extractNextSteps content nm }]
       else []
     else []
   | none => [])

/-- All candidates of one insight content, line by line. -/
def contentCands (content : Str) : List Opp :=
  let lines := splitChar '\n' content
  (List.range lines.length).flatMap (fun idx =>
    lineCands content lines idx (jsTrim (lines.getD idx [])))

/-- All candidates of a list of opportunity-insight contents. -/
def allCands (contents : List Str) : List Opp :=
  contents.flatMap contentCands

/-- The `reduce`-based duplicate removal: keep a candidate only if no earlier
kept candidate has the same name. -/
def dedup (l : List Opp) : List Opp :=
  l.foldl (fun acc o => if acc.any (fun p => p.name = o.name) then acc else acc ++ [o]) []

/-- The sort key: `parseFloat(value.replace(/[\$,]/g, ''))`. -/
def sortKey (o : Opp) : Option Int :=
  jsParseFloat (o.value.filter (fun c => ¬ (c = '$' ∨ c = ',')))

/-- `(b, a) => bVal - aVal` with JS array sort's NaN-to-`+0` coercion. -/
def jsCmp (a b : Opp) : Int :=
  match sortKey a, sortKey b with
  | some x, some y => y - x
  | _, _ => 0

/-- Stable insertion placing `a` before the first kept element it must
strictly precede. -/
def insSorted (a : Opp) : List Opp → List Opp
  | [] => [a]
  | b :: bs => if jsCmp a b < 0 then a :: b :: bs else b :: insSorted a bs

/-- A stable sort by `jsCmp` (one valid realisation of JS `Array.prototype
.sort`; for a consistent comparator — every key parsed — the ES2019 stable
sort result is unique, and this is it). -/
def sortOpps (l : List Opp) : List Opp :=
  l.foldl (fun acc o => insSorted o acc) []

/-- `parseOpportunities` over the contents of the categorised opportunity
insights: collect candidates, deduplicate by name, sort descending by
re-parsed value, keep the top 5. -/
def parseOpportunities (contents : List Str) : List Opp :=
  (sortOpps (dedup (allCands contents))).take 5


/-- The observable core of a session state: invocations, settlement, and
whether the loop has returned (everything except the buffer). -/
def coreOf (st : Sess) : List SEv × Option Settle × Bool :=
  (st.out, st.settle, st.stopDone)

/-- `stepRec` seen on the observable core alone. -/
def coreStep (c : List SEv × Option Settle × Bool) (rec : Str) :
    List SEv × Option Settle × Bool :=
  if c.2.2 then c
  else
    match decodeLineB rec with
    | none => c
    | some ev =>
      match settleOfEv ev with
      | some s => (c.1 ++ [ev], some s, true)
      | none => (c.1 ++ [ev], c.2.1, c.2.2)

/-- The prefix of an event list up to and including its first terminal event
(the whole list if none): exactly the events a session dispatches. -/
def cutTerm : List SEv → List SEv
  | [] => []
  | e :: es => if isTerm e then [e] else e :: cutTerm es

/-! # Theorems -/

/-! ## The progress state machine: helper lemmas -/

theorem stepB_phases_progress (st : BState) (msg : String) (p : Int) :
    (stepB st (.progressEvt msg p)).phases = stepPhases st.phases p := rfl

theorem stepB_phases_complete (st : BState) :
    (stepB st .completeEvt).phases = st.phases := rfl

theorem stepPhases_validate_ne (ph : Phases) (p : Int)
    (h : ph.validatePh ≠ .complete) : (stepPhases ph p).validatePh ≠ .complete := by
  unfold stepPhases
  split_ifs <;> simp_all

theorem runBench_validate_ne (es : List BEvent) :
    ∀ st : BState, st.phases.validatePh ≠ .complete →
      (List.foldl stepB st es).phases.validatePh ≠ .complete := by
  induction es with
  | nil => intro st h; simpa using h
  | cons e es ih =>
    intro st h
    cases e with
    | progressEvt msg p =>
      exact ih _ (by simpa [stepB] using stepPhases_validate_ne st.phases p h)
    | completeEvt => exact ih _ (by simpa [stepB] using h)

theorem stepPhases_init_eq (ph : Phases) (p : Int) :
    (stepPhases ph p).initPh =
      (if 20 ≤ p ∧ p < 50 then .complete else ph.initPh) := by
  unfold stepPhases; split_ifs <;> first | rfl | omega

theorem stepPhases_analyze_eq (ph : Phases) (p : Int) :
    (stepPhases ph p).analyzePh =
      (if 20 ≤ p ∧ p < 50 then .active
       else if 50 ≤ p ∧ p < 80 then .complete else ph.analyzePh) := by
  unfold stepPhases; split_ifs <;> first | rfl | omega

theorem stepPhases_generate_eq (ph : Phases) (p : Int) :
    (stepPhases ph p).generatePh =
      (if 50 ≤ p ∧ p < 80 then .active
       else if 80 ≤ p then .complete else ph.generatePh) := by
  unfold stepPhases; split_ifs <;> first | rfl | omega

theorem stepPhases_validate_eq (ph : Phases) (p : Int) :
    (stepPhases ph p).validatePh =
      (if 80 ≤ p then .active else ph.validatePh) := by
  unfold stepPhases; split_ifs <;> first | rfl | omega

theorem runPhases_validate_ne (l : List Int) :
    ∀ ph : Phases, ph.validatePh ≠ .complete →
      (List.foldl stepPhases ph l).validatePh ≠ .complete := by
  induction l with
  | nil => intro ph h; simpa using h
  | cons p l ih =>
    intro ph h
    refine ih _ ?_
    rw [stepPhases_validate_eq]
    split_ifs <;> simp_all

theorem analyze_complete_exists (l : List Int) :
    ∀ ph : Phases, (List.foldl stepPhases ph l).analyzePh = .complete →
      ph.analyzePh = .complete ∨ ∃ q ∈ l, (50 : Int) ≤ q := by
  induction l with
  | nil => intro ph h; exact Or.inl h
  | cons p l ih =>
    intro ph h
    rcases ih (stepPhases ph p) h with h1 | ⟨q, hq, hq50⟩
    · rw [stepPhases_analyze_eq] at h1
      split_ifs at h1 with h2 h3
      · exact Or.inr ⟨p, by simp, h3.1⟩
      · exact Or.inl h1
    · exact Or.inr ⟨q, by simp [hq], hq50⟩

theorem generate_complete_exists (l : List Int) :
    ∀ ph : Phases, (List.foldl stepPhases ph l).generatePh = .complete →
      ph.generatePh = .complete ∨ ∃ q ∈ l, (80 : Int) ≤ q := by
  induction l with
  | nil => intro ph h; exact Or.inl h
  | cons p l ih =>
    intro ph h
    rcases ih (stepPhases ph p) h with h1 | ⟨q, hq, hq80⟩
    · rw [stepPhases_generate_eq] at h1
      split_ifs at h1 with h2 h3
      · exact Or.inr ⟨p, by simp, h3⟩
      · exact Or.inl h1
    · exact Or.inr ⟨q, by simp [hq], hq80⟩

theorem stepPhases_mono (ph : Phases) (p : Int)
    (h50 : ph.analyzePh = .complete → 50 ≤ p)
    (h80 : ph.generatePh = .complete → 80 ≤ p)
    (hv : ph.validatePh ≠ .complete) :
    phasesMono ph (stepPhases ph p) := by
  refine ⟨fun hc => ?_, fun hc => ?_, fun hc => ?_, fun hc => ?_⟩
  · rw [stepPhases_init_eq]; split_ifs <;> simp_all
  · rw [stepPhases_analyze_eq]
    have := h50 hc
    split_ifs <;> first | rfl | omega | exact hc
  · rw [stepPhases_generate_eq]
    have := h80 hc
    split_ifs <;> first | rfl | omega | exact hc
  · exact absurd hc hv

theorem phasesMono_refl (ph : Phases) : phasesMono ph ph :=
  ⟨id, id, id, id⟩

theorem phasesMono_trans {a b c : Phases} (h1 : phasesMono a b) (h2 : phasesMono b c) :
    phasesMono a c :=
  ⟨fun h => h2.1 (h1.1 h), fun h => h2.2.1 (h1.2.1 h),
   fun h => h2.2.2.1 (h1.2.2.1 h), fun h => h2.2.2.2 (h1.2.2.2 h)⟩

theorem runPhases_append_mono (l : List Int) (p : Int) (hle : ∀ q ∈ l, q ≤ p) :
    phasesMono (runPhases l) (runPhases (l ++ [p])) := by
  have hstep : runPhases (l ++ [p]) = stepPhases (runPhases l) p := by
    simp [runPhases, List.foldl_append]
  rw [hstep]
  refine stepPhases_mono _ _ (fun hc => ?_) (fun hc => ?_) ?_
  · rcases analyze_complete_exists l phasesStart hc with h | ⟨q, hq, h50⟩
    · simp [phasesStart] at h
    · exact le_trans h50 (hle q hq)
  · rcases generate_complete_exists l phasesStart hc with h | ⟨q, hq, h80⟩
    · simp [phasesStart] at h
    · exact le_trans h80 (hle q hq)
  · exact runPhases_validate_ne l phasesStart (by simp [phasesStart])

/-! ## Claims C1 and C2 -/

/-- Claim C1, counterexample.  The claim asserts that after a stream ending in
`complete` every execution phase is `complete`.  On the stream
`[progress 90, complete]` the reported progress is forced to 100, but the
phases are not all `complete` (`onComplete` never touches
`executionPhases`; the `Validate` phase is left `active`). -/
theorem c1_counterexample :
    (runBench [.progressEvt "Generating report" 90, .completeEvt]).progress = 100 ∧
    allPhasesComplete
      (runBench [.progressEvt "Generating report" 90, .completeEvt]).phases = false := by
  decide

/-- Claim C1, amended.  For any event stream ending in a `complete` event, the
reported progress is forced to 100 and the status line to `'Complete!'`, but
the execution phases are exactly those left by the progress events —
`onComplete` does not touch them, and in particular the `Validate` phase is
never `complete`. -/
theorem c1_complete_forces_progress_not_phases (es : List BEvent) :
    (runBench (es ++ [.completeEvt])).progress = 100 ∧
    (runBench (es ++ [.completeEvt])).statusMsg = "Complete!" ∧
    (runBench (es ++ [.completeEvt])).phases = (runBench es).phases ∧
    (runBench (es ++ [.completeEvt])).phases.validatePh ≠ .complete := by
  have happ : runBench (es ++ [.completeEvt]) = stepB (runBench es) .completeEvt := by
    simp [runBench, List.foldl_append]
  refine ⟨by rw [happ]; rfl, by rw [happ]; rfl, by rw [happ]; rfl, ?_⟩
  rw [happ, stepB_phases_complete]
  exact runBench_validate_ne es bStart (by simp [bStart, phasesStart])

/-- Claim C2, counterexample.  The claim asserts that on well-formed
(non-decreasing) streams at most one phase is `active` after any event and a
later phase is never `active` while an earlier one is not `complete`.  On the
non-decreasing progress stream `[10, 60]` both `Initialize` and `Generate`
are `active` simultaneously, and `Generate` is `active` while `Initialize` is
not `complete`. -/
theorem c2_counterexample :
    List.Sorted (· ≤ ·) [(10 : Int), 60] ∧
    activeCount (runPhases [10, 60]) = 2 ∧
    (runPhases [10, 60]).generatePh = .active ∧
    (runPhases [10, 60]).initPh ≠ .complete := by
  refine ⟨?_, by decide, by decide, by decide⟩
  simp [List.sorted_cons]

/-- Claim C2, amended.  For every well-formed input stream (progress values
non-decreasing), the phase states are monotonic in the weaker sense that
still holds of the code: no phase ever changes from `complete` back to
`active` or `pending`.  (The at-most-one-`active` part of the claim fails,
see the counterexample.) -/
theorem c2_phases_never_regress (ps : List Int) (hs : List.Sorted (· ≤ ·) ps) :
    ∀ i j : Nat, i ≤ j →
      phasesMono (runPhases (ps.take i)) (runPhases (ps.take j)) := by
  intro i j hij
  induction j, hij using Nat.le_induction with
  | base => exact phasesMono_refl _
  | succ j hij ih =>
    refine phasesMono_trans ih ?_
    by_cases hj : j < ps.length
    · have htake : ps.take (j + 1) = ps.take j ++ [ps[j]] := by
        rw [List.take_succ]
        simp [List.getElem?_eq_getElem hj]
      rw [htake]
      refine runPhases_append_mono _ _ ?_
      intro q hq
      refine List.Sorted.rel_of_mem_take_of_mem_drop hs hq ?_
      rw [List.drop_eq_getElem_cons hj]
      exact List.mem_cons_self _ _
    · have heq : ps.take (j + 1) = ps.take j := by
        rw [List.take_of_length_le (by omega), List.take_of_length_le (by omega)]
      rw [heq]
      exact phasesMono_refl _

/-- Claim C2, witness.  The amended theorem applied to the concrete
non-decreasing stream `[20, 60]`, from the state after one event to the state
after two. -/
theorem c2_phases_never_regress_witness :
    List.Sorted (· ≤ ·) [(20 : Int), 60] ∧
    phasesMono (runPhases ([(20 : Int), 60].take 1)) (runPhases ([(20 : Int), 60].take 2)) := by
  have hs : List.Sorted (· ≤ ·) [(20 : Int), 60] := by simp [List.sorted_cons]
  exact ⟨hs, c2_phases_never_regress [20, 60] hs 1 2 (by omega)⟩

/-! ## The buffered decoder: splitting lemmas -/

theorem consHead_ne_nil (c : Char) (l : List Str) : consHead c l ≠ [] := by
  cases l <;> simp [consHead]

theorem split2NL_nlnl (r : Str) : split2NL ('\n' :: '\n' :: r) = [] :: split2NL r := rfl

theorem split2NL_nl_nil : split2NL ['\n'] = [['\n']] := rfl

theorem split2NL_nl_cons (c2 : Char) (r : Str) (h : c2 ≠ '\n') :
    split2NL ('\n' :: c2 :: r) = consHead '\n' (consHead c2 (split2NL r)) := by
  simp [split2NL, h]

theorem split2NL_cons (c : Char) (r : Str) (h : c ≠ '\n') :
    split2NL (c :: r) = consHead c (split2NL r) := by
  rw [split2NL.eq_def]
  simp only [if_neg h]

theorem split2NL_ne_nil (s : Str) : split2NL s ≠ [] := by
  cases s with
  | nil => simp [split2NL]
  | cons c rest =>
    by_cases hc : c = '\n'
    · subst hc
      cases rest with
      | nil => simp [split2NL]
      | cons c2 r2 =>
        by_cases hc2 : c2 = '\n'
        · subst hc2; rw [split2NL_nlnl]; simp
        · rw [split2NL_nl_cons _ _ hc2]; exact consHead_ne_nil _ _
    · rw [split2NL_cons _ _ hc]; exact consHead_ne_nil _ _

theorem consHead_single (c : Char) (L : List Str) (x : Str) (hL : L ≠ [])
    (h : consHead c L = [x]) : ∃ y, L = [y] ∧ x = c :: y := by
  cases L with
  | nil => exact absurd rfl hL
  | cons a as =>
    simp [consHead] at h
    exact ⟨a, by simp [h.2], h.1.symm⟩

theorem split2NL_single : ∀ (s x : Str), split2NL s = [x] → x = s
  | [], x => by
    intro h
    simp [split2NL] at h
    exact h
  | c :: rest, x => by
    by_cases hc : c = '\n'
    · subst hc
      cases rest with
      | nil =>
        intro h
        rw [split2NL_nl_nil] at h
        simp at h
        exact h.symm
      | cons c2 r2 =>
        by_cases hc2 : c2 = '\n'
        · subst hc2
          rw [split2NL_nlnl]
          intro h
          have := split2NL_ne_nil r2
          simp at h
          exact absurd h.2 this
        · rw [split2NL_nl_cons _ _ hc2]
          intro h
          obtain ⟨y, hy, hx⟩ :=
            consHead_single _ _ _ (consHead_ne_nil _ _) h
          obtain ⟨z, hz, hyz⟩ := consHead_single _ _ _ (split2NL_ne_nil r2) hy
          have hzr : z = r2 := split2NL_single r2 z hz
          simp [hx, hyz, hzr]
    · rw [split2NL_cons _ _ hc]
      intro h
      obtain ⟨y, hy, hx⟩ := consHead_single _ _ _ (split2NL_ne_nil rest) h
      have hyr : y = rest := split2NL_single rest y hy
      simp [hx, hyr]

theorem split2NL_append : ∀ s t : Str,
    split2NL (s ++ t) = (split2NL s).dropLast ++ split2NL (lastP (split2NL s) ++ t)
  | [], t => by simp [split2NL, lastP]
  | c :: rest, t => by
    by_cases hc : c = '\n'
    · subst hc
      cases rest with
      | nil =>
        rw [split2NL_nl_nil]
        simp [lastP]
      | cons c2 r2 =>
        by_cases hc2 : c2 = '\n'
        · subst hc2
          have ih := split2NL_append r2 t
          have hcons : ('\n' :: '\n' :: r2) ++ t = '\n' :: '\n' :: (r2 ++ t) := rfl
          rw [hcons, split2NL_nlnl, split2NL_nlnl, ih]
          cases hL : split2NL r2 with
          | nil => exact absurd hL (split2NL_ne_nil r2)
          | cons x xs =>
            cases xs with
            | nil => simp [lastP]
            | cons x2 xs2 => simp [lastP]
        · have ih := split2NL_append r2 t
          have hcons : ('\n' :: c2 :: r2) ++ t = '\n' :: c2 :: (r2 ++ t) := rfl
          rw [hcons, split2NL_nl_cons _ _ hc2, split2NL_nl_cons _ _ hc2, ih]
          cases hL : split2NL r2 with
          | nil => exact absurd hL (split2NL_ne_nil r2)
          | cons x xs =>
            cases xs with
            | nil =>
              have hx : x = r2 := split2NL_single r2 x hL
              subst hx
              simp only [consHead, lastP, List.dropLast_single, List.getLast?_singleton,
                Option.getD_some, List.nil_append, List.dropLast_nil, List.cons_append]
              rw [split2NL_nl_cons _ _ hc2]
              rfl
            | cons x2 xs2 =>
              simp [consHead, lastP, List.dropLast_cons₂, List.getLast?_cons_cons]
    · have ih := split2NL_append rest t
      have hcons : (c :: rest) ++ t = c :: (rest ++ t) := rfl
      rw [hcons, split2NL_cons _ _ hc, split2NL_cons _ _ hc, ih]
      cases hL : split2NL rest with
      | nil => exact absurd hL (split2NL_ne_nil rest)
      | cons x xs =>
        cases xs with
        | nil =>
          have hx : x = rest := split2NL_single rest x hL
          subst hx
          simp only [consHead, lastP, List.dropLast_single, List.getLast?_singleton,
            Option.getD_some, List.nil_append, List.dropLast_nil, List.cons_append]
          rw [split2NL_cons _ _ hc]
          rfl
        | cons x2 xs2 =>
          simp [consHead, lastP, List.dropLast_cons₂, List.getLast?_cons_cons]

/-! ## The buffered decoder: session fusion -/

theorem stepRec_buf (st : Sess) (r : Str) : (stepRec st r).buf = st.buf := by
  by_cases hstop : st.stopDone
  · simp [stepRec, hstop]
  · cases hd : decodeLineB r with
    | none => simp [stepRec, hstop, hd]
    | some ev => cases hs : settleOfEv ev <;> simp [stepRec, hstop, hd, hs]

theorem coreOf_stepRec (st : Sess) (r : Str) :
    coreOf (stepRec st r) = coreStep (coreOf st) r := by
  by_cases hstop : st.stopDone
  · simp [stepRec, coreStep, coreOf, hstop]
  · cases hd : decodeLineB r with
    | none => simp [stepRec, coreStep, coreOf, hstop, hd]
    | some ev => cases hs : settleOfEv ev <;> simp [stepRec, coreStep, coreOf, hstop, hd, hs]

theorem procRecs_buf (recs : List Str) : ∀ st : Sess, (procRecs st recs).buf = st.buf := by
  induction recs with
  | nil => intro st; rfl
  | cons r rs ih =>
    intro st
    have : procRecs st (r :: rs) = procRecs (stepRec st r) rs := rfl
    rw [this, ih, stepRec_buf]

theorem coreOf_procRecs (recs : List Str) :
    ∀ st : Sess, coreOf (procRecs st recs) = recs.foldl coreStep (coreOf st) := by
  induction recs with
  | nil => intro st; rfl
  | cons r rs ih =>
    intro st
    have h1 : procRecs st (r :: rs) = procRecs (stepRec st r) rs := rfl
    rw [h1, ih, coreOf_stepRec]
    rfl

theorem stepRec_stopped (st : Sess) (r : Str) (h : st.stopDone = true) :
    stepRec st r = st := by
  simp [stepRec, h]

theorem procRecs_stopped (recs : List Str) :
    ∀ st : Sess, st.stopDone = true → procRecs st recs = st := by
  induction recs with
  | nil => intro st _; rfl
  | cons r rs ih =>
    intro st h
    have h1 : procRecs st (r :: rs) = procRecs (stepRec st r) rs := rfl
    rw [h1, stepRec_stopped st r h]
    exact ih st h

theorem coreStep_foldl_stopped (recs : List Str) :
    ∀ c : List SEv × Option Settle × Bool, c.2.2 = true → recs.foldl coreStep c = c := by
  induction recs with
  | nil => intro c _; rfl
  | cons r rs ih =>
    intro c h
    have h1 : (r :: rs).foldl coreStep c = rs.foldl coreStep (coreStep c r) := rfl
    rw [h1]
    have h2 : coreStep c r = c := by simp [coreStep, h]
    rw [h2]
    exact ih c h

theorem recordsOf_append (s t : Str) :
    recordsOf (s ++ t) = recordsOf s ++ recordsOf (lastP (split2NL s) ++ t) := by
  unfold recordsOf
  rw [split2NL_append]
  exact List.dropLast_append_of_ne_nil _ (split2NL_ne_nil _)

theorem lastP_split_append (s t : Str) :
    lastP (split2NL (s ++ t)) = lastP (split2NL (lastP (split2NL s) ++ t)) := by
  unfold lastP
  rw [split2NL_append]
  rw [List.getLast?_append_of_ne_nil _ (split2NL_ne_nil _)]
  rfl

theorem runSession_fusion (chunks : List Str) :
    coreOf (runSession chunks) = coreOf (procRecs sessInit (recordsOf (joinS chunks))) ∧
    ((runSession chunks).stopDone = false →
      (runSession chunks).buf = lastP (split2NL (joinS chunks))) := by
  induction chunks using List.reverseRecOn with
  | nil =>
    constructor
    · rfl
    · intro _; rfl
  | append_singleton cs c ih =>
    have hrun : runSession (cs ++ [c]) = feedChunk (runSession cs) c := by
      simp [runSession, List.foldl_append]
    have hjoin : joinS (cs ++ [c]) = joinS cs ++ c := by
      simp [joinS]
    set st := runSession cs with hst
    by_cases hstop : st.stopDone
    · have hfeed : feedChunk st c = st := by simp [feedChunk, hstop]
      have hcore2 : coreOf (procRecs sessInit (recordsOf (joinS (cs ++ [c])))) =
          coreOf (procRecs sessInit (recordsOf (joinS cs))) := by
        rw [hjoin, recordsOf_append]
        rw [coreOf_procRecs, coreOf_procRecs, List.foldl_append]
        refine coreStep_foldl_stopped _ _ ?_
        have := ih.1
        rw [← coreOf_procRecs]
        have hstopc : (coreOf (procRecs sessInit (recordsOf (joinS cs)))).2.2 = true := by
          rw [← this]
          exact hstop
        rw [coreOf_procRecs] at hstopc ⊢
        exact hstopc
      rw [hrun, hfeed, hcore2]
      refine ⟨ih.1, fun hfalse => absurd hfalse (by simp [hstop])⟩
    · have hbuf : st.buf = lastP (split2NL (joinS cs)) := ih.2 (by simpa using hstop)
      have hfeed : feedChunk st c =
          procRecs { st with buf := lastP (split2NL (st.buf ++ c)) }
            (split2NL (st.buf ++ c)).dropLast := by
        simp [feedChunk, hstop]
      constructor
      · calc
          coreOf (runSession (cs ++ [c]))
              = coreOf (procRecs { st with buf := lastP (split2NL (st.buf ++ c)) }
                  (split2NL (st.buf ++ c)).dropLast) := by rw [hrun, hfeed]
          _ = (split2NL (st.buf ++ c)).dropLast.foldl coreStep (coreOf st) := by
                rw [coreOf_procRecs]
                rfl
          _ = (split2NL (st.buf ++ c)).dropLast.foldl coreStep
                (coreOf (procRecs sessInit (recordsOf (joinS cs)))) := by rw [ih.1]
          _ = (split2NL (st.buf ++ c)).dropLast.foldl coreStep
                ((recordsOf (joinS cs)).foldl coreStep (coreOf sessInit)) := by
                rw [coreOf_procRecs]
          _ = ((recordsOf (joinS cs)) ++ (split2NL (st.buf ++ c)).dropLast).foldl
                coreStep (coreOf sessInit) := by rw [List.foldl_append]
          _ = (recordsOf (joinS (cs ++ [c]))).foldl coreStep (coreOf sessInit) := by
                rw [hjoin, recordsOf_append, hbuf]
                rfl
          _ = coreOf (procRecs sessInit (recordsOf (joinS (cs ++ [c])))) := by
                rw [coreOf_procRecs]
      · intro _
        rw [hrun, hfeed, procRecs_buf]
        show lastP (split2NL (st.buf ++ c)) = _
        rw [hbuf, hjoin]
        conv_rhs => rw [lastP_split_append]

theorem procRecs_char (recs : List Str) :
    ∀ st : Sess, st.stopDone = false → st.settle = none →
      (procRecs st recs).out = st.out ++ cutTerm (recs.filterMap decodeLineB) ∧
      (procRecs st recs).settle =
        ((recs.filterMap decodeLineB).find? isTerm).bind settleOfEv ∧
      (procRecs st recs).stopDone = (recs.filterMap decodeLineB).any isTerm := by
  induction recs with
  | nil =>
    intro st h1 h2
    exact ⟨by simp [procRecs, cutTerm], by simp [procRecs, h2], by simp [procRecs, h1]⟩
  | cons r rs ih =>
    intro st h1 h2
    have hcons : procRecs st (r :: rs) = procRecs (stepRec st r) rs := rfl
    cases hd : decodeLineB r with
    | none =>
      have hstep : stepRec st r = st := by simp [stepRec, h1, hd]
      rw [hcons, hstep]
      simpa [hd] using ih st h1 h2
    | some ev =>
      cases hs : settleOfEv ev with
      | none =>
        have hterm : isTerm ev = false := by simp [isTerm, hs]
        have hstep : stepRec st r = { st with out := st.out ++ [ev] } := by
          simp [stepRec, h1, hd, hs]
        rw [hcons, hstep]
        have ih2 := ih { st with out := st.out ++ [ev] } (by simpa using h1) (by simpa using h2)
        refine ⟨?_, ?_, ?_⟩
        · rw [ih2.1]
          simp [hd, cutTerm, hterm]
        · rw [ih2.2.1]
          simp [hd, List.find?, hterm]
        · rw [ih2.2.2]
          simp [hd, hterm]
      | some sv =>
        have hterm : isTerm ev = true := by simp [isTerm, hs]
        have hstep : stepRec st r =
            { st with out := st.out ++ [ev], settle := some sv, stopDone := true } := by
          simp [stepRec, h1, hd, hs]
        rw [hcons, hstep, procRecs_stopped _ _ (by simp)]
        refine ⟨?_, ?_, ?_⟩
        · simp [hd, cutTerm, hterm]
        · simp [hd, List.find?, hterm, hs]
        · simp [hd, hterm]

theorem exists_first_term (evs : List SEv) (h : evs.any isTerm = true) :
    ∃ pre term post, evs = pre ++ term :: post ∧ (∀ e ∈ pre, isTerm e = false) ∧
      isTerm term = true ∧ cutTerm evs = pre ++ [term] ∧
      evs.find? isTerm = some term := by
  induction evs with
  | nil => simp at h
  | cons e es ih =>
    by_cases he : isTerm e
    · exact ⟨[], e, es, by simp, by simp, he, by simp [cutTerm, he], by simp [List.find?, he]⟩
    · have hes : es.any isTerm = true := by
        simp [List.any_cons, he] at h
        simpa using h
      obtain ⟨pre, term, post, h1, h2, h3, h4, h5⟩ := ih hes
      refine ⟨e :: pre, term, post, by simp [h1], ?_, h3, ?_, ?_⟩
      · intro x hx
        rcases List.mem_cons.mp hx with rfl | hx
        · simpa using he
        · exact h2 x hx
      · simp [cutTerm, he, h4]
      · simp [List.find?, he, h5]

/-! ## Claims C3, C8 and C9 -/

/-- Claim C3, counterexample.  The claim asserts fragmentation invariance for
the streaming decoders, including `executeBenchmarkTask` — but that client
splits each read chunk on `'\n'` with no cross-read buffer.  Splitting the
same byte stream inside a record makes the decoded event disappear: delivered
whole, the stream yields one event; split mid-record, it yields none. -/
theorem c3_counterexample :
    joinS ["data: \x7b\"status\": \"working\", \"progress\": 10\x7d\n".toList] =
      joinS ["data: \x7b\"st".toList, "atus\": \"working\", \"progress\": 10\x7d\n".toList] ∧
    eventsA ["data: \x7b\"status\": \"working\", \"progress\": 10\x7d\n".toList] ≠
      eventsA ["data: \x7b\"st".toList, "atus\": \"working\", \"progress\": 10\x7d\n".toList] := by
  constructor
  · decide
  · decide

/-- Claim C3, amended.  Fragmentation invariance holds for the buffered
decoder of `analyzeDataStreaming.readStream` (which retains the trailing
partial record in its buffer across reads): any two chunkings of the same
byte stream produce the same handler invocations, in the same order, and the
same promise settlement.  The unbuffered `executeBenchmarkTask` decoder does
not have this property (see the counterexample). -/
theorem c3_buffered_decoder_invariant (cs1 cs2 : List Str)
    (h : joinS cs1 = joinS cs2) : sessionOut cs1 = sessionOut cs2 := by
  have h1 := (runSession_fusion cs1).1
  have h2 := (runSession_fusion cs2).1
  rw [h] at h1
  have hcore : coreOf (runSession cs1) = coreOf (runSession cs2) := by rw [h1, h2]
  have hout : (runSession cs1).out = (runSession cs2).out :=
    congrArg (fun t => t.1) hcore
  have hset : (runSession cs1).settle = (runSession cs2).settle :=
    congrArg (fun t => t.2.1) hcore
  unfold sessionOut
  rw [hout, hset]

/-- Claim C3, witness.  The amended theorem applied to a concrete stream
delivered whole versus split in the middle of its record. -/
theorem c3_buffered_decoder_invariant_witness :
    joinS ["data: \x7b\"type\": \"status\", \"progress\": 5\x7d\n\n".toList] =
      joinS ["data: \x7b\"ty".toList, "pe\": \"status\", \"progress\": 5\x7d\n\n".toList] ∧
    sessionOut ["data: \x7b\"type\": \"status\", \"progress\": 5\x7d\n\n".toList] =
      sessionOut ["data: \x7b\"ty".toList, "pe\": \"status\", \"progress\": 5\x7d\n\n".toList] :=
  ⟨by decide, c3_buffered_decoder_invariant _ _ (by decide)⟩

/-- Claim C8.  For every chunked stream whose decoded events contain a terminal
record, `readStream` invokes exactly one handler per decoded event, in
arrival order, up to and including the first terminal event; it settles the
promise exactly once, with the settlement determined by that terminal event
(resolve on `complete`, reject on `error`); and it dispatches no further
handler and no duplicate terminal event after the terminal record. -/
theorem c8_exactly_once_dispatch (chunks : List Str)
    (hterm : (decodedEvents (joinS chunks)).any isTerm = true) :
    ∃ pre term post,
      decodedEvents (joinS chunks) = pre ++ term :: post ∧
      (∀ e ∈ pre, isTerm e = false) ∧
      isTerm term = true ∧
      (sessionOut chunks).1 = pre ++ [term] ∧
      (sessionOut chunks).2 = settleOfEv term := by
  obtain ⟨pre, term, post, h1, h2, h3, h4, h5⟩ := exists_first_term _ hterm
  have hfus := (runSession_fusion chunks).1
  have hchar := procRecs_char (recordsOf (joinS chunks)) sessInit rfl rfl
  refine ⟨pre, term, post, h1, h2, h3, ?_, ?_⟩
  · calc
      (sessionOut chunks).1 = (coreOf (runSession chunks)).1 := rfl
      _ = (coreOf (procRecs sessInit (recordsOf (joinS chunks)))).1 := by rw [hfus]
      _ = (procRecs sessInit (recordsOf (joinS chunks))).out := rfl
      _ = sessInit.out ++ cutTerm (decodedEvents (joinS chunks)) := hchar.1
      _ = pre ++ [term] := by rw [h4]; rfl
  · calc
      (sessionOut chunks).2 = (coreOf (runSession chunks)).2.1 := rfl
      _ = (coreOf (procRecs sessInit (recordsOf (joinS chunks)))).2.1 := by rw [hfus]
      _ = (procRecs sessInit (recordsOf (joinS chunks))).settle := rfl
      _ = ((decodedEvents (joinS chunks)).find? isTerm).bind settleOfEv := hchar.2.1
      _ = settleOfEv term := by rw [h5]; rfl

/-- Claim C8, witness.  The theorem applied to a concrete two-chunk stream:
a status record, then a `complete` record, then a further status record that
must not be dispatched. -/
theorem c8_exactly_once_dispatch_witness :
    (decodedEvents (joinS ["data: \x7b\"type\": \"status\", \"progress\": 20\x7d\n\ndata: ".toList,
      "\x7b\"type\": \"complete\"\x7d\n\ndata: \x7b\"type\": \"status\", \"progress\": 90\x7d\n\n".toList])).any
        isTerm = true ∧
    ∃ pre term post,
      decodedEvents (joinS ["data: \x7b\"type\": \"status\", \"progress\": 20\x7d\n\ndata: ".toList,
        "\x7b\"type\": \"complete\"\x7d\n\ndata: \x7b\"type\": \"status\", \"progress\": 90\x7d\n\n".toList]) =
          pre ++ term :: post ∧
      (∀ e ∈ pre, isTerm e = false) ∧
      isTerm term = true ∧
      (sessionOut ["data: \x7b\"type\": \"status\", \"progress\": 20\x7d\n\ndata: ".toList,
        "\x7b\"type\": \"complete\"\x7d\n\ndata: \x7b\"type\": \"status\", \"progress\": 90\x7d\n\n".toList]).1 =
          pre ++ [term] ∧
      (sessionOut ["data: \x7b\"type\": \"status\", \"progress\": 20\x7d\n\ndata: ".toList,
        "\x7b\"type\": \"complete\"\x7d\n\ndata: \x7b\"type\": \"status\", \"progress\": 90\x7d\n\n".toList]).2 =
          settleOfEv term :=
  ⟨by decide, c8_exactly_once_dispatch _ (by decide)⟩

/-- Claim C9.  A malformed (unparsable) record among otherwise valid records is
skipped without aborting the session: the dispatched events of a line
sequence with the malformed line are exactly those without it, the total
count of dispatched events equals the count of well-formed lines only, the
chunked client dispatches exactly the events of its flattened line sequence,
and on a concrete three-record chunk with a malformed middle record exactly
the two valid events are dispatched. -/
theorem c9_malformed_record_skipped :
    (∀ pre suf : List Str, ∀ bad : Str, parseLineA bad = none →
       lineEventsA (pre ++ bad :: suf) = lineEventsA (pre ++ suf)) ∧
    (∀ ls : List Str, (lineEventsA ls).length = ls.countP (fun l => (parseLineA l).isSome)) ∧
    (∀ chunks : List Str, eventsA chunks = lineEventsA (chunks.flatMap (splitChar '\n'))) ∧
    eventsA ["data: \x7b\"status\": \"a\", \"progress\": 1\x7d\ndata: \x7boops\ndata: \x7b\"status\": \"b\", \"progress\": 2\x7d\n".toList] =
      [.onProgressInv (some (.jstr "a".toList)) (some (.jnum 1)),
       .onProgressInv (some (.jstr "b".toList)) (some (.jnum 2))] := by
  refine ⟨?_, ?_, ?_, by decide⟩
  · intro pre suf bad hbad
    simp [lineEventsA, List.filterMap_append, List.filterMap_cons, hbad]
  · intro ls
    induction ls with
    | nil => rfl
    | cons l ls ih =>
      cases hl : parseLineA l with
      | none => simp [lineEventsA, List.filterMap_cons, hl, List.countP_cons] at ih ⊢; omega
      | some ev => simp [lineEventsA, List.filterMap_cons, hl, List.countP_cons] at ih ⊢; omega
  · intro chunks
    induction chunks with
    | nil => rfl
    | cons c cs ih =>
      simp [eventsA, lineEventsA, chunkEventsA, List.filterMap_append] at ih ⊢
      rw [ih]

/-- Claim C9, witness.  The skip-and-continue part applied to a concrete
malformed record between two valid ones. -/
theorem c9_malformed_record_skipped_witness :
    parseLineA "data: \x7boops".toList = none ∧
    lineEventsA (["data: \x7b\"status\": \"a\", \"progress\": 1\x7d".toList] ++
        "data: \x7boops".toList :: ["data: \x7b\"status\": \"b\", \"progress\": 2\x7d".toList]) =
      lineEventsA (["data: \x7b\"status\": \"a\", \"progress\": 1\x7d".toList] ++
        ["data: \x7b\"status\": \"b\", \"progress\": 2\x7d".toList]) :=
  ⟨by decide, c9_malformed_record_skipped.1 _ _ _ (by decide)⟩

/-! ## Claims C4 and C5 -/

/-- Claim C4, counterexample.  The claim asserts that the Acme scenario yields
risk `"🏁 Active competition"`.  The context line contains `"stalled"`, and
`extractRisk` checks the stalled/stuck keyword group *before* the competitor
group, so the extracted risk is `"⚠️ Deal momentum stalled"` instead. -/
theorem c4_counterexample :
    (parseOpportunities
        ["1. Acme Corp - $125,000 (Negotiation)\n\nAcme Corp is stalled due to competitor evaluation".toList]).map
        (fun o => (o.name, o.value, o.stage, o.risk)) =
      [("Acme Corp".toList, "$125,000".toList, some "Negotiation".toList,
        some "⚠️ Deal momentum stalled")] ∧
    (some "⚠️ Deal momentum stalled" : Option String) ≠ some "🏁 Active competition" := by
  exact ⟨by decide, by decide⟩

/-- Claim C4, amended.  The Acme scenario yields exactly one opportunity with
name `"Acme Corp"`, value `"$125,000"`, stage `"Negotiation"` — but its risk
is `"⚠️ Deal momentum stalled"`, because the stalled keyword group is checked
before the competition group and the context mentions `"stalled"`; `why` is
`null` and `nextSteps` falls back to the default. -/
theorem c4_acme_scenario :
    (parseOpportunities
        ["1. Acme Corp - $125,000 (Negotiation)\n\nAcme Corp is stalled due to competitor evaluation".toList]).map
        (fun o => (o.name, o.value, o.stage)) =
      [("Acme Corp".toList, "$125,000".toList, some "Negotiation".toList)] ∧
    (parseOpportunities
        ["1. Acme Corp - $125,000 (Negotiation)\n\nAcme Corp is stalled due to competitor evaluation".toList]).map
        (fun o => (o.risk, o.why, o.nextSteps)) =
      [(some "⚠️ Deal momentum stalled", (none : Option String), "Review and prioritize")] := by
  exact ⟨by decide, by decide⟩

theorem whyOf_mem (ctx : Str) (lab : String) (h : whyOf ctx = some lab) :
    lab ∈ ["🎯 High probability to close", "💰 High-value strategic deal",
           "⏰ Time-sensitive opportunity", "🤝 Expansion opportunity"] := by
  unfold whyOf at h
  split_ifs at h <;> simp_all

theorem riskOf_mem (ctx : Str) (lab : String) (h : riskOf ctx = some lab) :
    lab ∈ ["⚠️ Deal momentum stalled", "🏁 Active competition",
           "💸 Budget concerns", "👥 Missing key stakeholders"] := by
  unfold riskOf at h
  split_ifs at h <;> simp_all

theorem nextStepsOf_mem (ctx : Str) (lab : String) (h : nextStepsOf ctx = some lab) :
    lab ∈ ["Follow up with decision maker", "Schedule product demo",
           "Send proposal/pricing", "Push for commitment"] := by
  unfold nextStepsOf at h
  split_ifs at h <;> simp_all

/-- Claim C5, counterexample.  The claim asserts a previous-1/next-3 window and
that unmatched fields are never filled with a default.  A risk keyword on the
third line after the deal line is inside the claimed window but outside the
code's `[i-1, i+3)` slice, so `extractRisk` misses it; and
`extractNextSteps` without any keyword returns the guessed default
`'Review and prioritize'` instead of leaving the field undefined. -/
theorem c5_counterexample :
    extractRisk "1. Acme - $5 (S)\n\n\ncompetitor evaluation".toList "Acme".toList = none ∧
    riskOf (List.intercalate [' ']
        (jsSlice 0 4 (splitChar '\n' "1. Acme - $5 (S)\n\n\ncompetitor evaluation".toList))) =
      some "🏁 Active competition" ∧
    extractNextSteps "1. Acme - $5 (S)".toList "Acme".toList = "Review and prioritize" := by
  exact ⟨by decide, by decide, by decide⟩

/-- Claim C5, amended.  `extractWhy`/`extractRisk` scan the previous 1 and
next 2 lines around each line mentioning the candidate name and return `null`
when no keyword group matches there; `extractNextSteps` scans the line and
the next 4 and falls back to the guessed default `'Review and prioritize'`.
Each extractor maps the first keyword-group hit to one of its fixed labels:
a non-`null` result is always one of the group labels.  Concretely, a risk
keyword two lines after the deal line is found, three lines after it is not,
and one line before it is found. -/
theorem c5_enrichment_windows :
    (∀ content dealName : Str, ∀ lab : String, extractWhy content dealName = some lab →
       lab ∈ ["🎯 High probability to close", "💰 High-value strategic deal",
              "⏰ Time-sensitive opportunity", "🤝 Expansion opportunity"]) ∧
    (∀ content dealName : Str, ∀ lab : String, extractRisk content dealName = some lab →
       lab ∈ ["⚠️ Deal momentum stalled", "🏁 Active competition",
              "💸 Budget concerns", "👥 Missing key stakeholders"]) ∧
    (∀ content dealName : Str,
       extractNextSteps content dealName = "Review and prioritize" ∨
       extractNextSteps content dealName ∈
         ["Follow up with decision maker", "Schedule product demo",
          "Send proposal/pricing", "Push for commitment"]) ∧
    extractRisk "1. Acme - $5 (S)\n\ncompetitor evaluation".toList "Acme".toList =
      some "🏁 Active competition" ∧
    extractRisk "1. Acme - $5 (S)\n\n\ncompetitor evaluation".toList "Acme".toList = none ∧
    extractRisk "competitor evaluation\n1. Acme - $5 (S)".toList "Acme".toList =
      some "🏁 Active competition" := by
  refine ⟨?_, ?_, ?_, by decide, by decide, by decide⟩
  · intro content dealName lab h
    unfold extractWhy at h
    obtain ⟨i, _, hf⟩ := List.exists_of_findSome?_eq_some h
    split_ifs at hf
    exact whyOf_mem _ _ hf
  · intro content dealName lab h
    unfold extractRisk at h
    obtain ⟨i, _, hf⟩ := List.exists_of_findSome?_eq_some h
    split_ifs at hf
    exact riskOf_mem _ _ hf
  · intro content dealName
    have hzeta : extractNextSteps content dealName =
        ((List.range (splitChar '\n' content).length).findSome? (fun i =>
          if strContains ((splitChar '\n' content).getD i []) dealName then
            nextStepsOf (nsWindow (splitChar '\n' content) i) else none)).getD
          "Review and prioritize" := rfl
    rw [hzeta]
    cases hfs : (List.range (splitChar '\n' content).length).findSome? (fun i =>
        if strContains ((splitChar '\n' content).getD i []) dealName then
          nextStepsOf (nsWindow (splitChar '\n' content) i) else none) with
    | none => exact Or.inl rfl
    | some lab =>
      refine Or.inr ?_
      obtain ⟨i, _, hf⟩ := List.exists_of_findSome?_eq_some hfs
      split_ifs at hf
      simpa using nextStepsOf_mem _ _ hf

/-! ## Claim C6 -/

theorem dedup_go_pres (l : List Opp) :
    ∀ (acc : List Opp) (n : Str), acc.any (fun o => o.name = n) = true →
      (l.foldl (fun acc o =>
        if acc.any (fun p => p.name = o.name) then acc else acc ++ [o]) acc).find?
          (fun o => o.name = n) =
        acc.find? (fun o => o.name = n) := by
  induction l with
  | nil => intro acc n _; rfl
  | cons o l ih =>
    intro acc n h
    by_cases hskip : acc.any (fun p => p.name = o.name) = true
    · simp only [List.foldl_cons, if_pos hskip]
      exact ih acc n h
    · simp only [List.foldl_cons, if_neg hskip]
      have hany : (acc ++ [o]).any (fun o => o.name = n) = true := by
        simp [List.any_append, h]
      rw [ih (acc ++ [o]) n hany, List.find?_append]
      have hsome : (acc.find? (fun o => o.name = n)).isSome := by
        rw [List.find?_isSome]
        simpa using h
      obtain ⟨x, hx⟩ := Option.isSome_iff_exists.mp hsome
      rw [hx]
      rfl

theorem dedup_go_new (l : List Opp) :
    ∀ (acc : List Opp) (n : Str), acc.any (fun o => o.name = n) = false →
      (l.foldl (fun acc o =>
        if acc.any (fun p => p.name = o.name) then acc else acc ++ [o]) acc).find?
          (fun o => o.name = n) =
        l.find? (fun o => o.name = n) := by
  induction l with
  | nil =>
    intro acc n h
    simp only [List.foldl_nil, List.find?_nil]
    rw [List.find?_eq_none]
    exact List.any_eq_false.mp h
  | cons o l ih =>
    intro acc n h
    by_cases ho : (decide (o.name = n)) = true
    · have hon : o.name = n := of_decide_eq_true ho
      have hskip : (acc.any fun p => decide (p.name = o.name)) = false := by
        rw [hon]
        exact h
      have hif : (if (acc.any fun p => decide (p.name = o.name)) = true
          then acc else acc ++ [o]) = acc ++ [o] := by
        rw [hskip]
        simp
      rw [List.foldl_cons, hif]
      have hany : (acc ++ [o]).any (fun p => p.name = n) = true := by
        simp only [List.any_append, Bool.or_eq_true]
        right
        simp [hon]
      rw [dedup_go_pres l (acc ++ [o]) n hany, List.find?_append]
      have hnone : acc.find? (fun o => o.name = n) = none := by
        rw [List.find?_eq_none]
        exact List.any_eq_false.mp h
      rw [hnone]
      simp [List.find?, ho]
    · have ho' : (decide (o.name = n)) = false := by simpa using ho
      have hcons : List.find? (fun o => decide (o.name = n)) (o :: l) =
          List.find? (fun o => decide (o.name = n)) l := by
        simp [List.find?, ho']
      rw [hcons]
      by_cases hskip : (acc.any fun p => decide (p.name = o.name)) = true
      · have hif : (if (acc.any fun p => decide (p.name = o.name)) = true
            then acc else acc ++ [o]) = acc := by
          rw [hskip]
          simp
        rw [List.foldl_cons, hif]
        exact ih acc n h
      · have hif : (if (acc.any fun p => decide (p.name = o.name)) = true
            then acc else acc ++ [o]) = acc ++ [o] := by
          simp only [hskip]
          simp
        rw [List.foldl_cons, hif]
        have hany : (acc ++ [o]).any (fun p => p.name = n) = false := by
          simp only [List.any_append, Bool.or_eq_false_iff]
          exact ⟨h, by simp [ho']⟩
        exact ih (acc ++ [o]) n hany

/-- Claim C6.  Deduplication keeps, for every name, exactly the first extracted
candidate bearing it — all its fields, so a later duplicate never overwrites
`value` or any other already-set field: looking an opportunity up by name in
the deduplicated list gives the same (whole) record as in the raw candidate
list.  Concretely, two numbered-list lines with the same name and different
non-empty stages yield one merged opportunity carrying the first-seen stage
(and the first-seen value). -/
theorem c6_dedup_first_occurrence_wins :
    (∀ (l : List Opp) (n : Str),
       (dedup l).find? (fun o => o.name = n) = l.find? (fun o => o.name = n)) ∧
    (parseOpportunities ["1. Acme - $100 (Stage A)\n2. Acme - $200 (Stage B)".toList]).map
        (fun o => (o.name, o.value, o.stage)) =
      [("Acme".toList, "$100".toList, some "Stage A".toList)] := by
  refine ⟨?_, by decide⟩
  intro l n
  exact dedup_go_new l [] n (by simp)

/-! ## Claims C7 and C10 -/

theorem tableMatch_pipe (t : Str) (x : Str × Str × Str × Str × Str)
    (h : tableMatch t = some x) : ∃ r, t = '|' :: r := by
  rw [tableMatch.eq_def] at h
  split at h
  · rename_i r
    exact ⟨r, rfl⟩
  · exact absurd h (by simp)

theorem p2Match_pipe (r : Str) : p2Match ('|' :: r) = none := by
  unfold p2Match
  have h : ('|' : Char).isDigit = false := by decide
  simp [List.takeWhile_cons, h]

theorem p3Match_pipe (r : Str) : p3Match ('|' :: r) = none := by
  unfold p3Match
  have h : ¬('A' ≤ ('|' : Char) ∧ ('|' : Char) ≤ 'Z') := by decide
  simp [h]

theorem lineCands_pipe (content : Str) (lines : List Str) (idx : Nat) (r : Str) :
    lineCands content lines idx ('|' :: r) =
      (match tableMatch ('|' :: r) with
       | some (rank, nm, value, stage, owner) =>
         if ¬ (strContains nm "Deal".toList ∨ strContains nm "Name".toList ∨
               strContains nm "---".toList) then
           let dealName := jsTrim nm
           let dealValue := (jsTrim value).filter (fun c => ¬ (c = '$' ∨ c = ','))
           if dealName ≠ [] ∧ dealValue ≠ [] ∧ (jsParseFloat dealValue).isSome then
             [{ rank := some (jsTrim rank),
                name := dealName,
                value := dollarValue (jsParseFloat dealValue),
                stage := some (if jsTrim stage = [] then "Unknown".toList else jsTrim stage),
                owner := some (if jsTrim owner = [] then "Unassigned".toList else jsTrim owner),
                context := extractDealContext content dealName,
                why := extractWhy content dealName,
                risk := extractRisk content dealName,
                nextSteps := extractNextSteps content dealName }]
           else []
         else []
       | none => []) := by
  unfold lineCands
  rw [p2Match_pipe, p3Match_pipe]
  cases htm : tableMatch ('|' :: r) with
  | none => simp
  | some x =>
    obtain ⟨rank, nm, value, stage, owner⟩ := x
    simp

/-- Claim C7, counterexample.  The claim asserts that any candidate whose value
fails numeric parsing is dropped from the list.  The numbered-list pattern
accepts an all-comma value: on `"1. Foo - ,"` the candidate's formatted value
is `"$NaN"`, its sort key fails to parse, and the entry is *retained* in the
final list rather than dropped. -/
theorem c7_counterexample :
    (parseOpportunities ["1. Foo - ,".toList]).map (fun o => (o.name, o.value, sortKey o)) =
      [("Foo".toList, "$NaN".toList, none)] := by
  decide

theorem insSorted_mem (a : Opp) :
    ∀ (l : List Opp) (y : Opp), y ∈ insSorted a l → y = a ∨ y ∈ l := by
  intro l
  induction l with
  | nil => intro y hy; simp [insSorted] at hy; exact Or.inl hy
  | cons b bs ih =>
    intro y hy
    unfold insSorted at hy
    split_ifs at hy
    · rcases List.mem_cons.mp hy with rfl | hy2
      · exact Or.inl rfl
      · exact Or.inr hy2
    · rcases List.mem_cons.mp hy with rfl | hy2
      · exact Or.inr (by simp)
      · rcases ih y hy2 with rfl | hy3
        · exact Or.inl rfl
        · exact Or.inr (by simp [hy3])

theorem insSorted_pairwise (a : Opp) :
    ∀ l : List Opp, (sortKey a).isSome →
      (∀ o ∈ l, (sortKey o).isSome) →
      l.Pairwise (fun x y => jsCmp x y ≤ 0) →
      (insSorted a l).Pairwise (fun x y => jsCmp x y ≤ 0) := by
  intro l
  induction l with
  | nil => intro _ _ _; simp [insSorted]
  | cons b bs ih =>
    intro ha hl hp
    obtain ⟨ka, hka⟩ := Option.isSome_iff_exists.mp ha
    obtain ⟨kb, hkb⟩ := Option.isSome_iff_exists.mp (hl b (by simp))
    unfold insSorted
    split_ifs with hab
    · refine List.Pairwise.cons ?_ hp
      intro y hy
      rcases List.mem_cons.mp hy with rfl | hy2
      · exact le_of_lt hab
      · obtain ⟨ky, hky⟩ := Option.isSome_iff_exists.mp (hl y (by simp [hy2]))
        have hby := (List.pairwise_cons.mp hp).1 y hy2
        simp only [jsCmp, hka, hkb, hky] at hab hby ⊢
        omega
    · refine List.Pairwise.cons ?_ ?_
      · intro y hy
        rcases insSorted_mem a (bs) y hy with rfl | hy2
        · simp only [jsCmp, hka, hkb] at hab ⊢
          omega
        · exact (List.pairwise_cons.mp hp).1 y hy2
      · exact ih ha (fun o ho => hl o (by simp [ho])) (List.pairwise_cons.mp hp).2

theorem sortOpps_go_pairwise :
    ∀ (l acc : List Opp), (∀ o ∈ l, (sortKey o).isSome) →
      (∀ o ∈ acc, (sortKey o).isSome) →
      acc.Pairwise (fun x y => jsCmp x y ≤ 0) →
      (l.foldl (fun acc o => insSorted o acc) acc).Pairwise (fun x y => jsCmp x y ≤ 0) := by
  intro l
  induction l with
  | nil => intro acc _ _ hp; exact hp
  | cons o l ih =>
    intro acc hl hacc hp
    rw [List.foldl_cons]
    refine ih (insSorted o acc) (fun x hx => hl x (by simp [hx])) ?_ ?_
    · intro x hx
      rcases insSorted_mem o acc x hx with rfl | hx2
      · exact hl x (by simp)
      · exact hacc x hx2
    · exact insSorted_pairwise o acc (hl o (by simp)) hacc hp

/-- Claim C7, amended.  The final opportunity list is truncated to at most 5
entries; whenever every deduplicated candidate's value parses, the final list
is sorted descending by parsed numeric value; a *table-row* candidate whose
value fails numeric parsing is dropped at extraction time (its line produces
no candidate at all); and the concrete six-value scenario excludes the
`bad-value` row and orders the remaining five entries descending.  However, a
numbered-list candidate can carry an unparsable value and is then retained as
`"$NaN"` rather than dropped (see the counterexample). -/
theorem c7_ranking_and_truncation :
    (∀ contents : List Str, (parseOpportunities contents).length ≤ 5) ∧
    (∀ contents : List Str,
       (∀ o ∈ dedup (allCands contents), (sortKey o).isSome) →
       (parseOpportunities contents).Pairwise (fun a b => jsCmp a b ≤ 0)) ∧
    (∀ (content : Str) (lines : List Str) (idx : Nat) (t : Str)
       (rank nm value stage owner : Str),
       tableMatch t = some (rank, nm, value, stage, owner) →
       jsParseFloat ((jsTrim value).filter (fun c => ¬ (c = '$' ∨ c = ','))) = none →
       lineCands content lines idx t = []) ∧
    (parseOpportunities
        ["| 1 | Alpha | $50K | S1 | Bob |\n| 2 | Beta | $200K | S2 | Ann |\n| 3 | Gamma | bad-value | S3 | Joe |\n| 4 | Delta | $10K | S4 | Kim |\n| 5 | Echo | $75K | S5 | Lee |\n| 6 | Foxtrot | $5K | S6 | Max |".toList]).map
        (fun o => (o.name, o.value)) =
      [("Beta".toList, "$200".toList), ("Echo".toList, "$75".toList),
       ("Alpha".toList, "$50".toList), ("Delta".toList, "$10".toList),
       ("Foxtrot".toList, "$5".toList)] := by
  refine ⟨?_, ?_, ?_, by decide⟩
  · intro contents
    exact List.length_take_le 5 _
  · intro contents h
    unfold parseOpportunities
    refine List.Pairwise.sublist (List.take_sublist 5 _) ?_
    exact sortOpps_go_pairwise (dedup (allCands contents)) [] h (by simp) (by simp)
  · intro content lines idx t rank nm value stage owner hmatch hval
    obtain ⟨r, rfl⟩ := tableMatch_pipe _ _ hmatch
    rw [lineCands_pipe]
    simp only [hmatch]
    split_ifs with hdr hok
    · rfl
    · have hcontra := hok.2.2
      rw [hval] at hcontra
      simp at hcontra
    · rfl

/-- Claim C7, witness.  The hypothesis-bearing parts of the amended theorem
applied to the concrete scenario: all five retained values parse and the
result is sorted descending; and the concrete `bad-value` table row produces
no candidate. -/
theorem c7_ranking_and_truncation_witness :
    ((∀ o ∈ dedup (allCands
        ["| 1 | Alpha | $50K | S1 | Bob |\n| 2 | Beta | $200K | S2 | Ann |\n| 4 | Delta | $10K | S4 | Kim |".toList]),
        (sortKey o).isSome) ∧
      (parseOpportunities
        ["| 1 | Alpha | $50K | S1 | Bob |\n| 2 | Beta | $200K | S2 | Ann |\n| 4 | Delta | $10K | S4 | Kim |".toList]).Pairwise
          (fun a b => jsCmp a b ≤ 0)) ∧
    (tableMatch (jsTrim "| 3 | Gamma | bad-value | S3 | Joe |".toList) =
        some (" 3 ".toList, " Gamma ".toList, " bad-value ".toList, " S3 ".toList,
          " Joe ".toList) ∧
      jsParseFloat ((jsTrim " bad-value ".toList).filter
        (fun c => ¬ (c = '$' ∨ c = ','))) = none ∧
      lineCands [] [] 0 (jsTrim "| 3 | Gamma | bad-value | S3 | Joe |".toList) = []) := by
  refine ⟨⟨by decide, c7_ranking_and_truncation.2.1 _ (by decide)⟩, by decide, by decide, ?_⟩
  exact c7_ranking_and_truncation.2.2.1 [] [] 0
    (jsTrim "| 3 | Gamma | bad-value | S3 | Joe |".toList)
    " 3 ".toList " Gamma ".toList " bad-value ".toList " S3 ".toList " Joe ".toList
    (by decide) (by decide)

/-- Claim C10.  In pipe-delimited table extraction, every row whose name cell
contains `'Deal'`, `'Name'` or `'---'` as a substring is skipped as a
presumed header row, and such a line produces no candidate through any
pattern family; consequently a genuine table-row opportunity whose name
contains `'Deal'` or `'Name'` is excluded from the resulting list. -/
theorem c10_header_skip_excludes_deal_rows :
    (∀ (content : Str) (lines : List Str) (idx : Nat) (t : Str)
       (rank nm value stage owner : Str),
       tableMatch t = some (rank, nm, value, stage, owner) →
       (strContains nm "Deal".toList ∨ strContains nm "Name".toList ∨
        strContains nm "---".toList) →
       lineCands content lines idx t = []) ∧
    parseOpportunities ["| 1 | DealMaker Inc | $50,000 | Negotiation | Bob |".toList] = [] := by
  refine ⟨?_, by decide⟩
  intro content lines idx t rank nm value stage owner hmatch hdr
  obtain ⟨r, rfl⟩ := tableMatch_pipe _ _ hmatch
  rw [lineCands_pipe]
  simp only [hmatch]
  split_ifs with hcond hok <;> first | rfl | exact absurd hdr hcond

/-- Claim C10, witness.  The skip applied to the concrete
`DealMaker Inc` table row. -/
theorem c10_header_skip_excludes_deal_rows_witness :
    tableMatch "| 1 | DealMaker Inc | $50,000 | Negotiation | Bob |".toList =
      some (" 1 ".toList, " DealMaker Inc ".toList, " $50,000 ".toList,
        " Negotiation ".toList, " Bob ".toList) ∧
    strContains " DealMaker Inc ".toList "Deal".toList = true ∧
    lineCands [] [] 0 "| 1 | DealMaker Inc | $50,000 | Negotiation | Bob |".toList = [] := by
  refine ⟨by decide, by decide, ?_⟩
  exact c10_header_skip_excludes_deal_rows.1 [] [] 0
    "| 1 | DealMaker Inc | $50,000 | Negotiation | Bob |".toList
    " 1 ".toList " DealMaker Inc ".toList " $50,000 ".toList " Negotiation ".toList
    " Bob ".toList (by decide) (by decide)
